import Mathlib

/-!
Verification of the EWMA stress-test pipeline (`versions.ipynb`):
exponentially weighted covariance of yield differences, dominant eigenpair
extraction, chi-squared shock scaling, and fixed-rate bond repricing.

Real-valued code is embedded over `ℝ` (exact real semantics of the formulas);
the calendar arithmetic of `pandas` (month offsets, month-end anchored date
ranges, day counts) is embedded over an explicit proleptic Gregorian calendar.
-/

/- ## Covariance Estimator (notebook cell 1, lines 48-54) -/

/-- Unnormalized decay weight of row `t` (row `0` oldest):
`weights = (1-λ) * λ ** np.arange(T-1, -1, -1)`, entry `t` being
`(1-λ)·λ^(T-1-t)`. -/
noncomputable def rawWeight (lam : ℝ) (T t : ℕ) : ℝ :=
  (1 - lam) * lam ^ (T - 1 - t)

/-- Normalized EWMA weight of row `t`: `weights /= weights.sum()`. -/
noncomputable def weights (lam : ℝ) (T t : ℕ) : ℝ :=
  rawWeight lam T t / ∑ s in Finset.range T, rawWeight lam T s

/-- EWMA covariance `H_ewma = (rets * weights[:, None]).T @ rets`:
entry `(i, j)` is `Σ_t w t · x t i · x t j` over the `T` rows. -/
noncomputable def H_ewma {N : ℕ} (w : ℕ → ℝ) (x : ℕ → Fin N → ℝ) (T : ℕ) :
    Fin N → Fin N → ℝ :=
  fun i j => ∑ t in Finset.range T, w t * x t i * x t j

/- ## Shock Scaler (notebook cell 1, lines 63-68) -/

/-- `shock_mag = np.sqrt(c * λ_max)` with `c = stats.chi2.ppf(0.995, df=N)`;
the scipy inverse CDF is the abstract parameter `ppf`. -/
noncomputable def shock_mag (ppf : ℝ → ℕ → ℝ) (N : ℕ) (lamMax : ℝ) : ℝ :=
  Real.sqrt (ppf 0.995 N * lamMax)

/-- `delta_up = shock_mag * e_max`. -/
noncomputable def delta_up {n : ℕ} (ppf : ℝ → ℕ → ℝ) (N : ℕ) (lamMax : ℝ)
    (eMax : Fin n → ℝ) : Fin n → ℝ :=
  fun i => shock_mag ppf N lamMax * eMax i

/-- `delta_down = -shock_mag * e_max`. -/
noncomputable def delta_down {n : ℕ} (ppf : ℝ → ℕ → ℝ) (N : ℕ) (lamMax : ℝ)
    (eMax : Fin n → ℝ) : Fin n → ℝ :=
  fun i => -shock_mag ppf N lamMax * eMax i

/- ## Basic weight lemmas -/

lemma rawWeight_pos {lam : ℝ} (h0 : 0 < lam) (h1 : lam < 1) (T t : ℕ) :
    0 < rawWeight lam T t := by
  unfold rawWeight
  have : 0 < 1 - lam := by linarith
  positivity

lemma rawWeight_sum_pos {lam : ℝ} (h0 : 0 < lam) (h1 : lam < 1) {T : ℕ}
    (hT : 0 < T) : 0 < ∑ s in Finset.range T, rawWeight lam T s :=
  Finset.sum_pos (fun s _ => rawWeight_pos h0 h1 T s)
    (Finset.nonempty_range_iff.mpr (Nat.pos_iff_ne_zero.mp hT))

lemma weights_pos {lam : ℝ} (h0 : 0 < lam) (h1 : lam < 1) {T : ℕ}
    (hT : 0 < T) (t : ℕ) : 0 < weights lam T t :=
  div_pos (rawWeight_pos h0 h1 T t) (rawWeight_sum_pos h0 h1 hT)

/-- **C3** — For every `T ≥ 2` and decay `0 < λ < 1`, the normalized EWMA
weights are strictly positive, monotonically non-increasing going backward in
time (an older row never weighs more than a newer one), and sum to `1`. -/
theorem C3_weights_simplex (lam : ℝ) (T : ℕ)
    (hT : 2 ≤ T) (h0 : 0 < lam) (h1 : lam < 1) :
    (∀ t, t < T → 0 < weights lam T t) ∧
    (∀ s t, s ≤ t → t < T → weights lam T s ≤ weights lam T t) ∧
    (∑ t in Finset.range T, weights lam T t) = 1 := by
  have hTpos : 0 < T := by omega
  have hSpos := rawWeight_sum_pos h0 h1 hTpos
  refine ⟨fun t _ => weights_pos h0 h1 hTpos t, ?_, ?_⟩
  · intro s t hst _
    unfold weights
    refine (div_le_div_iff_of_pos_right hSpos).mpr ?_
    unfold rawWeight
    have hexp : T - 1 - t ≤ T - 1 - s := by omega
    have hpow : lam ^ (T - 1 - s) ≤ lam ^ (T - 1 - t) :=
      pow_le_pow_of_le_one h0.le h1.le hexp
    have h1m : (0:ℝ) ≤ 1 - lam := by linarith
    exact mul_le_mul_of_nonneg_left hpow h1m
  · unfold weights
    rw [← Finset.sum_div, div_self (ne_of_gt hSpos)]

/-- **C3 witness** at `λ = 1/2`, `T = 2`. -/
theorem C3_witness :
    (∀ t, t < 2 → 0 < weights (1/2) 2 t) ∧
    (∀ s t, s ≤ t → t < 2 → weights (1/2) 2 s ≤ weights (1/2) 2 t) ∧
    (∑ t in Finset.range 2, weights (1/2) 2 t) = 1 :=
  C3_weights_simplex (1/2) 2 (by norm_num) (by norm_num) (by norm_num)

/- ## Covariance quadratic form -/

lemma quad_form_eq {N : ℕ} (w : ℕ → ℝ) (x : ℕ → Fin N → ℝ) (T : ℕ)
    (v : Fin N → ℝ) :
    ∑ i, ∑ j, v i * H_ewma w x T i j * v j
      = ∑ t in Finset.range T, w t * (∑ i, v i * x t i) ^ 2 := by
  have key : ∀ t, w t * (∑ i, v i * x t i) ^ 2
      = ∑ i, ∑ j, v i * (w t * x t i * x t j) * v j := by
    intro t
    rw [sq, Finset.sum_mul_sum, Finset.mul_sum]
    refine Finset.sum_congr rfl fun i _ => ?_
    rw [Finset.mul_sum]
    exact Finset.sum_congr rfl fun j _ => by ring
  calc ∑ i, ∑ j, v i * H_ewma w x T i j * v j
      = ∑ i, ∑ j, ∑ t in Finset.range T, v i * (w t * x t i * x t j) * v j := by
        unfold H_ewma
        refine Finset.sum_congr rfl fun i _ => Finset.sum_congr rfl fun j _ => ?_
        rw [Finset.mul_sum, Finset.sum_mul]
    _ = ∑ i, ∑ t in Finset.range T, ∑ j, v i * (w t * x t i * x t j) * v j :=
        Finset.sum_congr rfl fun i _ => Finset.sum_comm
    _ = ∑ t in Finset.range T, ∑ i, ∑ j, v i * (w t * x t i * x t j) * v j :=
        Finset.sum_comm
    _ = ∑ t in Finset.range T, w t * (∑ i, v i * x t i) ^ 2 :=
        Finset.sum_congr rfl fun t _ => (key t).symm

/-- **C4** — For every input matrix and every positive weight vector summing
to one, the EWMA covariance matrix is symmetric and positive semi-definite. -/
theorem C4_cov_symm_psd {N : ℕ} (T : ℕ) (w : ℕ → ℝ) (x : ℕ → Fin N → ℝ)
    (hw : ∀ t, t < T → 0 < w t)
    (hsum : ∑ t in Finset.range T, w t = 1) :
    (∀ i j, H_ewma w x T i j = H_ewma w x T j i) ∧
    (∀ v : Fin N → ℝ, 0 ≤ ∑ i, ∑ j, v i * H_ewma w x T i j * v j) := by
  constructor
  · intro i j
    unfold H_ewma
    exact Finset.sum_congr rfl fun t _ => by ring
  · intro v
    rw [quad_form_eq]
    refine Finset.sum_nonneg fun t ht => ?_
    exact mul_nonneg (hw t (Finset.mem_range.mp ht)).le (sq_nonneg _)

/-- **C4 witness** at `N = 1`, `T = 1`, unit weight, all-ones data. -/
theorem C4_witness :
    (∀ i j : Fin 1, H_ewma (fun _ => (1:ℝ)) (fun _ _ => 1) 1 i j
      = H_ewma (fun _ => (1:ℝ)) (fun _ _ => 1) 1 j i) ∧
    (∀ v : Fin 1 → ℝ,
      0 ≤ ∑ i, ∑ j, v i * H_ewma (fun _ => (1:ℝ)) (fun _ _ => 1) 1 i j * v j) :=
  C4_cov_symm_psd 1 (fun _ => 1) (fun _ _ => 1) (fun _ _ => one_pos) (by simp)

/- ## Shock Scaler theorems -/

/-- **C1** — The Shock Scaler returns exactly
`magnitude = sqrt(c · λ_max)` with `c = chi2.ppf(0.995, N)`; the magnitude is
non-negative, its square recovers `c · λ_max` (no other adjustment), and
`delta_up = magnitude · e_max`. -/
theorem C1_shock_formula {n : ℕ} (ppf : ℝ → ℕ → ℝ) (N : ℕ) (lamMax : ℝ)
    (eMax : Fin n → ℝ) (hN : 1 ≤ N) (hc : 0 ≤ ppf 0.995 N) (hl : 0 ≤ lamMax) :
    shock_mag ppf N lamMax = Real.sqrt (ppf 0.995 N * lamMax) ∧
    0 ≤ shock_mag ppf N lamMax ∧
    shock_mag ppf N lamMax ^ 2 = ppf 0.995 N * lamMax ∧
    ∀ i, delta_up ppf N lamMax eMax i = shock_mag ppf N lamMax * eMax i := by
  refine ⟨rfl, Real.sqrt_nonneg _, ?_, fun i => rfl⟩
  exact Real.sq_sqrt (mul_nonneg hc hl)

/-- **C1 witness** with the constant inverse CDF `4`, `N = 7`, `λ_max = 1`. -/
theorem C1_witness :
    shock_mag (fun _ _ => 4) 7 1 = Real.sqrt (4 * 1) ∧
    0 ≤ shock_mag (fun _ _ => 4) 7 1 ∧
    shock_mag (fun _ _ => 4) 7 1 ^ 2 = 4 * 1 ∧
    ∀ i : Fin 1, delta_up (fun _ _ => 4) 7 1 (fun _ => 1) i
      = shock_mag (fun _ _ => 4) 7 1 * (fun _ : Fin 1 => (1:ℝ)) i :=
  C1_shock_formula (fun _ _ => 4) 7 1 (fun _ => 1)
    (by norm_num) (by norm_num) (by norm_num)

/-- **C2** — The down-shock vector is exactly the elementwise negation of the
up-shock vector: `delta_down[i] = -delta_up[i]` for every tenor index. -/
theorem C2_down_neg_up {n : ℕ} (ppf : ℝ → ℕ → ℝ) (N : ℕ) (lamMax : ℝ)
    (eMax : Fin n → ℝ) (i : Fin n) :
    delta_down ppf N lamMax eMax i = -(delta_up ppf N lamMax eMax i) := by
  unfold delta_up delta_down
  ring

/- ## Risk Factor Extractor (notebook cell 1, lines 57-60)

`np.linalg.eigh` is the external eigensolver; its output is a vector `vals`
of eigenvalues and, per index `k`, a unit eigenvector `vecs k`.  The
extractor itself is `idx = np.argmax(vals); λ_max = vals[idx];
e_max = vecs[:, idx]`. -/

/-- Matrix-vector product `H @ v`. -/
noncomputable def matVec {n : ℕ} (H : Fin n → Fin n → ℝ) (v : Fin n → ℝ) :
    Fin n → ℝ :=
  fun i => ∑ j, H i j * v j

/-- `(μ, v)` is an eigenpair of `H`: `v ≠ 0` and `H v = μ v`. -/
def IsEigenpair {n : ℕ} (H : Fin n → Fin n → ℝ) (μ : ℝ) (v : Fin n → ℝ) :
    Prop :=
  v ≠ 0 ∧ matVec H v = fun i => μ * v i

open Classical in
/-- One step of `np.argmax`: keep the incumbent unless a strictly larger
value appears. -/
noncomputable def argmaxStep {n : ℕ} (vals : Fin n → ℝ) (best i : Fin n) :
    Fin n :=
  if vals best < vals i then i else best

open Classical in
/-- Left fold of `argmaxStep` over a list of candidate indices. -/
noncomputable def argmaxList {n : ℕ} (vals : Fin n → ℝ) :
    Fin n → List (Fin n) → Fin n
  | best, [] => best
  | best, i :: rest => argmaxList vals (argmaxStep vals best i) rest

/-- `idx = np.argmax(vals)` over all indices. -/
noncomputable def argmaxIdx {n : ℕ} (vals : Fin (n+1) → ℝ) : Fin (n+1) :=
  argmaxList vals 0 (List.finRange (n+1))

/-- `λ_max = vals[idx]`. -/
noncomputable def lambdaMax {n : ℕ} (vals : Fin (n+1) → ℝ) : ℝ :=
  vals (argmaxIdx vals)

/-- `e_max = vecs[:, idx]`. -/
noncomputable def eMaxVec {n : ℕ} (vals : Fin (n+1) → ℝ)
    (vecs : Fin (n+1) → Fin (n+1) → ℝ) : Fin (n+1) → ℝ :=
  vecs (argmaxIdx vals)

lemma argmaxList_spec {n : ℕ} (vals : Fin n → ℝ) :
    ∀ (l : List (Fin n)) (best : Fin n),
      vals best ≤ vals (argmaxList vals best l) ∧
      ∀ i ∈ l, vals i ≤ vals (argmaxList vals best l) := by
  intro l
  induction l with
  | nil => exact fun best => ⟨le_refl _, by simp⟩
  | cons i rest ih =>
    intro best
    have hstep : vals best ≤ vals (argmaxStep vals best i) ∧
        vals i ≤ vals (argmaxStep vals best i) := by
      unfold argmaxStep
      split_ifs with h
      · exact ⟨h.le, le_refl _⟩
      · exact ⟨le_refl _, le_of_not_lt h⟩
    obtain ⟨h1, h2⟩ := ih (argmaxStep vals best i)
    refine ⟨hstep.1.trans h1, ?_⟩
    intro j hj
    rcases List.mem_cons.mp hj with rfl | hjr
    · exact hstep.2.trans h1
    · exact h2 j hjr

lemma argmaxIdx_spec {n : ℕ} (vals : Fin (n+1) → ℝ) (k : Fin (n+1)) :
    vals k ≤ lambdaMax vals :=
  (argmaxList_spec vals (List.finRange (n+1)) 0).2 k (List.mem_finRange k)

/-- **C5 (amended)** — Given the eigensolver output for a symmetric `H`
(a complete list of eigenvalues, each with a unit eigenvector), the extractor
returns the *maximum* eigenvalue with its unit eigenvector; the maximum
dominates every eigenvalue of `H`, and it is additionally the eigenvalue of
largest magnitude whenever `H` is positive semi-definite (as the pipeline's
covariance matrix is) — but not for an arbitrary symmetric `H`. -/
theorem C5_extractor {n : ℕ} (H : Fin (n+1) → Fin (n+1) → ℝ)
    (vals : Fin (n+1) → ℝ) (vecs : Fin (n+1) → Fin (n+1) → ℝ)
    (hsym : ∀ i j, H i j = H j i)
    (heig : ∀ k, matVec H (vecs k) = fun i => vals k * vecs k i)
    (hunit : ∀ k, ∑ i, vecs k i ^ 2 = 1)
    (hcomplete : ∀ μ v, IsEigenpair H μ v → ∃ k, vals k = μ) :
    (∀ μ v, IsEigenpair H μ v → μ ≤ lambdaMax vals) ∧
    IsEigenpair H (lambdaMax vals) (eMaxVec vals vecs) ∧
    (∑ i, eMaxVec vals vecs i ^ 2 = 1) ∧
    ((∀ v : Fin (n+1) → ℝ, 0 ≤ ∑ i, v i * matVec H v i) →
      ∀ μ v, IsEigenpair H μ v → |μ| ≤ |lambdaMax vals|) := by
  have hne : ∀ k, vecs k ≠ 0 := by
    intro k hk
    have := hunit k
    rw [hk] at this
    simp at this
  have hpair : ∀ k, IsEigenpair H (vals k) (vecs k) :=
    fun k => ⟨hne k, heig k⟩
  have hdom : ∀ μ v, IsEigenpair H μ v → μ ≤ lambdaMax vals := by
    intro μ v hμ
    obtain ⟨k, hk⟩ := hcomplete μ v hμ
    exact hk ▸ argmaxIdx_spec vals k
  refine ⟨hdom, hpair _, hunit _, ?_⟩
  intro hpsd μ v hμ
  have hnn : ∀ ν w, IsEigenpair H ν w → 0 ≤ ν := by
    intro ν w hw
    obtain ⟨hw0, hweq⟩ := hw
    have hq : ∑ i, w i * matVec H w i = ν * ∑ i, w i ^ 2 := by
      rw [hweq, Finset.mul_sum]
      exact Finset.sum_congr rfl fun i _ => by ring
    have hwpos : 0 < ∑ i, w i ^ 2 := by
      obtain ⟨i, hi⟩ := Function.ne_iff.mp hw0
      refine Finset.sum_pos' (fun j _ => sq_nonneg _) ⟨i, Finset.mem_univ i, ?_⟩
      simpa using pow_pos (abs_pos.mpr hi) 2 |>.trans_eq (sq_abs _)
    have h0 : 0 ≤ ν * ∑ i, w i ^ 2 := hq ▸ hpsd w
    rw [mul_comm] at h0
    exact nonneg_of_mul_nonneg_right h0 hwpos
  have hμ0 : 0 ≤ μ := hnn μ v hμ
  have hl0 : 0 ≤ lambdaMax vals := hnn _ _ (hpair (argmaxIdx vals))
  rw [abs_of_nonneg hμ0, abs_of_nonneg hl0]
  exact hdom μ v hμ

/-- **C5 witness** on the 1×1 matrix `[[2]]` with eigensolver output
`vals = [2]`, `vecs = [[1]]`. -/
theorem C5_witness :
    (∀ μ v, IsEigenpair (fun _ _ : Fin 1 => (2:ℝ)) μ v →
      μ ≤ lambdaMax (fun _ : Fin 1 => (2:ℝ))) ∧
    IsEigenpair (fun _ _ : Fin 1 => (2:ℝ)) (lambdaMax (fun _ : Fin 1 => (2:ℝ)))
      (eMaxVec (fun _ : Fin 1 => (2:ℝ)) (fun _ _ => 1)) ∧
    (∑ i, eMaxVec (fun _ : Fin 1 => (2:ℝ)) (fun _ _ => 1) i ^ 2 = 1) ∧
    ((∀ v : Fin 1 → ℝ, 0 ≤ ∑ i, v i * matVec (fun _ _ => (2:ℝ)) v i) →
      ∀ μ v, IsEigenpair (fun _ _ : Fin 1 => (2:ℝ)) μ v →
        |μ| ≤ |lambdaMax (fun _ : Fin 1 => (2:ℝ))|) :=
  C5_extractor (fun _ _ => 2) (fun _ => 2) (fun _ _ => 1)
    (fun _ _ => rfl)
    (fun k => by funext i; simp [matVec])
    (fun k => by simp)
    (by
      intro μ v hv
      refine ⟨0, ?_⟩
      obtain ⟨hv0, heq⟩ := hv
      have h0 : v 0 ≠ 0 := by
        intro h
        apply hv0
        funext i
        have hlt := i.isLt
        have hi : i = 0 := Fin.ext (by omega)
        rw [hi, h]
        rfl
      have h2 : (2:ℝ) * v 0 = μ * v 0 := by
        simpa [matVec] using congrFun heq 0
      exact mul_right_cancel₀ h0 h2)

/-- Symmetric test matrix `diag(-5, 1)` for which the maximum eigenvalue is
not the one of largest magnitude. -/
noncomputable def H5 : Fin 2 → Fin 2 → ℝ :=
  fun i j => if i = j then (if i.val = 0 then -5 else 1) else 0

/-- Eigensolver eigenvalues of `H5`. -/
noncomputable def vals5 : Fin 2 → ℝ := fun i => if i.val = 0 then -5 else 1

/-- Eigensolver unit eigenvectors of `H5` (standard basis). -/
noncomputable def vecs5 : Fin 2 → Fin 2 → ℝ := fun k i => if k = i then 1 else 0

/-- **C5 counterexample** — On the symmetric matrix `diag(-5, 1)` with valid
eigensolver output, the extractor returns `λ_max = 1`, yet `-5` is an
eigenvalue of `H` of strictly larger magnitude: the claim's "eigenvalue of
largest magnitude" fails for a general symmetric input. -/
theorem C5_counterexample :
    (∀ i j, H5 i j = H5 j i) ∧
    (∀ k, matVec H5 (vecs5 k) = fun i => vals5 k * vecs5 k i) ∧
    (∀ k, ∑ i, vecs5 k i ^ 2 = 1) ∧
    lambdaMax vals5 = 1 ∧
    IsEigenpair H5 (-5) (vecs5 0) ∧
    ¬ (|(-5 : ℝ)| ≤ |lambdaMax vals5|) := by
  have hstep0 : argmaxStep vals5 0 0 = 0 := by
    rw [argmaxStep, if_neg (lt_irrefl _)]
  have hstep1 : argmaxStep vals5 0 1 = 1 := by
    rw [argmaxStep, if_pos]
    show vals5 0 < vals5 1
    norm_num [vals5]
  have hidx : argmaxIdx vals5 = 1 := by
    have hfr : List.finRange 2 = [0, 1] := rfl
    rw [argmaxIdx, hfr, argmaxList, hstep0, argmaxList, hstep1, argmaxList]
  have hlm : lambdaMax vals5 = 1 := by
    rw [lambdaMax, hidx]
    norm_num [vals5]
  refine ⟨?_, ?_, ?_, hlm, ⟨?_, ?_⟩, ?_⟩
  · intro i j
    fin_cases i <;> fin_cases j <;> simp [H5]
  · intro k
    funext i
    fin_cases k <;> fin_cases i <;>
      simp [matVec, H5, vals5, vecs5, Fin.sum_univ_two]
  · intro k
    fin_cases k <;> simp [vecs5, Fin.sum_univ_two]
  · intro h
    have := congrFun h 0
    simp [vecs5] at this
  · funext i
    fin_cases i <;> simp [matVec, H5, vecs5, Fin.sum_univ_two]
  · rw [hlm]
    norm_num

/- ## C8: degenerate sample sizes -/

/-- **C8 (amended)** — The Covariance Estimator performs no input validation:
at `T = 1` the weights normalize to `[1]` and it returns the rank-one outer
product `x₀ x₀ᵀ`, and at `T = 0` it silently returns the all-zero matrix; no
`InvalidInput` failure occurs in the code. -/
theorem C8_no_validation {N : ℕ} (lam : ℝ) (x : ℕ → Fin N → ℝ)
    (h0 : 0 < lam) (h1 : lam < 1) :
    weights lam 1 0 = 1 ∧
    (∀ i j, H_ewma (weights lam 1) x 1 i j = x 0 i * x 0 j) ∧
    (∀ i j, H_ewma (weights lam 0) x 0 i j = 0) := by
  have hraw : rawWeight lam 1 0 ≠ 0 := (rawWeight_pos h0 h1 1 0).ne'
  have hw : weights lam 1 0 = 1 := by
    unfold weights
    rw [Finset.sum_range_one, div_self hraw]
  refine ⟨hw, ?_, ?_⟩
  · intro i j
    unfold H_ewma
    rw [Finset.sum_range_one, hw, one_mul]
  · intro i j
    simp [H_ewma]

/-- **C8 witness** at `λ = 1/2`, one tenor, constant data `2`. -/
theorem C8_witness :
    weights (1/2) 1 0 = 1 ∧
    (∀ i j : Fin 1, H_ewma (weights (1/2) 1) (fun _ _ => (2:ℝ)) 1 i j
      = (fun _ _ : ℕ => (2:ℝ)) 0 i * (fun _ _ : ℕ => (2:ℝ)) 0 j) ∧
    (∀ i j : Fin 1, H_ewma (weights (1/2) 0) (fun _ _ => (2:ℝ)) 0 i j = 0) :=
  @C8_no_validation 1 (1/2) (fun _ _ => (2:ℝ)) (by norm_num) (by norm_num)

/-- **C8 counterexample** — With the notebook's `λ = 0.94`, the estimator
*returns results* on degenerate inputs instead of failing: the zero matrix at
`T = 0` (which the claim says never silently happens) and the value `4` at
`T = 1` on the single row `[2]`. -/
theorem C8_counterexample :
    H_ewma (weights (47/50) 0) (fun _ _ => (1:ℝ)) 0 (0 : Fin 1) (0 : Fin 1) = 0 ∧
    weights (47/50 : ℝ) 1 0 = 1 ∧
    H_ewma (weights (47/50) 1) (fun _ _ => (2:ℝ)) 1 (0 : Fin 1) (0 : Fin 1) = 4 := by
  have hraw : rawWeight ((47:ℝ)/50) 1 0 ≠ 0 :=
    (rawWeight_pos (by norm_num) (by norm_num) 1 0).ne'
  have hw : weights ((47:ℝ)/50) 1 0 = 1 := by
    unfold weights
    rw [Finset.sum_range_one, div_self hraw]
  refine ⟨by simp [H_ewma], hw, ?_⟩
  unfold H_ewma
  rw [Finset.sum_range_one, hw]
  norm_num

/- ## Calendar: pandas Timestamp / DateOffset / month-end date_range

Dates are proleptic Gregorian: `m` is the absolute month index (month `0` is
January of year `0`), `d` the 1-based day of month. -/

/-- Gregorian leap-year test. -/
def isLeap (y : ℕ) : Bool := (y % 4 == 0 && y % 100 != 0) || y % 400 == 0

/-- Number of days in absolute month `m`. -/
def daysInMonth (m : ℕ) : ℕ :=
  if m % 12 = 1 then (if isLeap (m / 12) then 29 else 28)
  else if m % 12 = 3 ∨ m % 12 = 5 ∨ m % 12 = 8 ∨ m % 12 = 10 then 30
  else 31

/-- A calendar date. -/
structure Date where
  m : ℕ
  d : ℕ
deriving DecidableEq

/-- Chronological `a ≤ b`, as pandas compares Timestamps. -/
def dateLe (a b : Date) : Bool :=
  decide (a.m < b.m ∨ (a.m = b.m ∧ a.d ≤ b.d))

/-- Chronological `a < b`. -/
def dateLt (a b : Date) : Bool :=
  decide (a.m < b.m ∨ (a.m = b.m ∧ a.d < b.d))

lemma dateLe_iff {a b : Date} :
    dateLe a b = true ↔ a.m < b.m ∨ (a.m = b.m ∧ a.d ≤ b.d) := by
  simp [dateLe]

/-- `pd.DateOffset(months=k)`: advance `k` months, clamping the day to the
target month's length (e.g. Dec 31 + 6 months = Jun 30). -/
def addMonths (dt : Date) (k : ℕ) : Date :=
  ⟨dt.m + k, min dt.d (daysInMonth (dt.m + k))⟩

/-- The last day of absolute month `m`. -/
def monthEnd (m : ℕ) : Date := ⟨m, daysInMonth m⟩

/-- `pd.date_range(start, end, freq=f"{step}ME")`: month-end anchored dates.
The first anchor is the month-end of `start`'s month (pandas rolls `start`
forward to the anchor, and the month-end of `start`'s month is never before
`start`); anchors then advance `step` months at a time, keeping those `≤ end`. -/
def dateRangeME (start e : Date) (step : ℕ) : List Date :=
  ((List.range ((e.m - start.m) / step + 1)).map
    (fun k => monthEnd (start.m + step * k))).filter (fun a => dateLe a e)

/-- Cumulative days before absolute month `m`. -/
def daysBeforeMonth : ℕ → ℕ
  | 0 => 0
  | m + 1 => daysBeforeMonth m + daysInMonth m

/-- Day number of a date; differences of `toDays` are the `.days` of pandas
Timestamp subtraction. -/
def toDays (dt : Date) : ℕ := daysBeforeMonth dt.m + dt.d

/-- `(dt - today).days / 365`: act/365 year fraction. -/
def yearFrac (today dt : Date) : ℚ :=
  ((toDays dt : ℚ) - (toDays today : ℚ)) / 365

/- ## Bond Valuer (notebook cell 2, lines 104-113) -/

/-- `FixedRateBond(issue, maturity, coupon, freq=2, par=1000000)`. -/
structure FixedRateBond where
  issue : Date
  maturity : Date
  coupon : ℚ
  freq : ℕ
  par : ℚ
deriving DecidableEq

/-- `cashflows()`: payment dates are
`pd.date_range(issue + DateOffset(months=step), maturity, freq=f"{step}ME")`
with `step = int(12/freq)`; every amount is `par·coupon/freq` and
`cfs[-1] += par` adds the principal to the last one — an `IndexError`
(modelled `none`) when the schedule is empty. -/
def FixedRateBond.cashflows (b : FixedRateBond) : Option (List (Date × ℚ)) :=
  match dateRangeME (addMonths b.issue (12 / b.freq)) b.maturity (12 / b.freq) with
  | [] => none
  | d :: ds =>
      some ((d :: ds).zip
        (List.replicate ds.length (b.par * b.coupon / (b.freq : ℚ)) ++
          [b.par * b.coupon / (b.freq : ℚ) + b.par]))

/-- `pv(curve, today) = Σ amt · df((dt - today).days/365)` over all cash
flows; a `cashflows()` failure propagates. -/
noncomputable def FixedRateBond.pv (b : FixedRateBond) (df : ℚ → ℝ)
    (today : Date) : Option ℝ :=
  (b.cashflows).map fun cfs =>
    (cfs.map fun p => (p.2 : ℝ) * df (yearFrac today p.1)).sum

/- ## C6: the 2-year 2% semiannual schedule -/

/-- **C6 (amended)** — For every issue date, the 2-year 2% semiannual bond's
payment dates are the month-ends of issue month +6, +12 and +18, plus the
month-end of issue month +24 exactly when `daysInMonth (issue.m + 24) ≤
issue.d` — i.e. exactly when the day-clamped maturity `issue + 2 years`
falls on the last day of its month.  In that case there are exactly 4 cash
flows, each `par/100` except the last, `par/100 + par`, and the last date
equals maturity; otherwise there are exactly 3, with the principal attached
to the +18-month date.  (The 4-flow case covers month-end issues and also
e.g. a Feb-28 issue of a leap year maturing in a non-leap year.) -/
theorem C6_two_year_schedule (issue : Date) (par : ℚ) :
    (daysInMonth (issue.m + 24) ≤ issue.d →
      addMonths issue 24 = monthEnd (issue.m + 24) ∧
      (FixedRateBond.mk issue (addMonths issue 24) (1/50) 2 par).cashflows =
        some [(monthEnd (issue.m + 6), par / 100),
              (monthEnd (issue.m + 12), par / 100),
              (monthEnd (issue.m + 18), par / 100),
              (monthEnd (issue.m + 24), par / 100 + par)]) ∧
    (issue.d < daysInMonth (issue.m + 24) →
      (FixedRateBond.mk issue (addMonths issue 24) (1/50) 2 par).cashflows =
        some [(monthEnd (issue.m + 6), par / 100),
              (monthEnd (issue.m + 12), par / 100),
              (monthEnd (issue.m + 18), par / 100 + par)]) := by
  have hamt : par * (1/50) / ((2:ℕ) : ℚ) = par / 100 := by
    push_cast
    ring
  have hstartm : (addMonths issue 6).m = issue.m + 6 := rfl
  have hcnt : ((addMonths issue 24).m - (addMonths issue 6).m) / 6 + 1 = 4 := by
    show (issue.m + 24 - (issue.m + 6)) / 6 + 1 = 4
    omega
  have hlt : ∀ k, k < 24 →
      dateLe (monthEnd (issue.m + k)) (addMonths issue 24) = true := by
    intro k hk
    rw [dateLe_iff]
    exact Or.inl (by show issue.m + k < issue.m + 24; omega)
  have h6 := hlt 6 (by omega)
  have h12 := hlt 12 (by omega)
  have h18 := hlt 18 (by omega)
  constructor
  · intro hA
    have hmat : addMonths issue 24 = monthEnd (issue.m + 24) := by
      unfold addMonths monthEnd
      rw [min_eq_right hA]
    have h24 : dateLe (monthEnd (issue.m + 24)) (addMonths issue 24) = true := by
      rw [dateLe_iff]
      right
      exact ⟨rfl, le_min hA (le_refl _)⟩
    have hrange : dateRangeME (addMonths issue 6) (addMonths issue 24) 6 =
        [monthEnd (issue.m + 6), monthEnd (issue.m + 12),
         monthEnd (issue.m + 18), monthEnd (issue.m + 24)] := by
      unfold dateRangeME
      rw [hcnt, hstartm]
      rw [show List.range 4 = [0, 1, 2, 3] from rfl]
      simp only [List.map]
      rw [show issue.m + 6 + 6 * 0 = issue.m + 6 by omega,
          show issue.m + 6 + 6 * 1 = issue.m + 12 by omega,
          show issue.m + 6 + 6 * 2 = issue.m + 18 by omega,
          show issue.m + 6 + 6 * 3 = issue.m + 24 by omega]
      simp only [List.filter_cons, List.filter_nil, h6, h12, h18, h24, if_true]
    refine ⟨hmat, ?_⟩
    have hflows : (FixedRateBond.mk issue (addMonths issue 24) (1/50) 2 par).cashflows =
        some ([monthEnd (issue.m + 6), monthEnd (issue.m + 12),
               monthEnd (issue.m + 18), monthEnd (issue.m + 24)].zip
          (List.replicate 3 (par * (1/50) / ((2:ℕ) : ℚ)) ++
            [par * (1/50) / ((2:ℕ) : ℚ) + par])) := by
      unfold FixedRateBond.cashflows
      dsimp only
      rw [hrange]
      rfl
    rw [hflows, hamt]
    rfl
  · intro hB
    have h24f : dateLe (monthEnd (issue.m + 24)) (addMonths issue 24) = false := by
      simp only [dateLe, decide_eq_false_iff_not]
      rintro (h1 | ⟨-, h2⟩)
      · exact absurd h1 (by show ¬ issue.m + 24 < issue.m + 24; omega)
      · have hdd : daysInMonth (issue.m + 24) ≤
            min issue.d (daysInMonth (issue.m + 24)) := h2
        have := le_trans hdd (min_le_left _ _)
        omega
    have hrange3 : dateRangeME (addMonths issue 6) (addMonths issue 24) 6 =
        [monthEnd (issue.m + 6), monthEnd (issue.m + 12),
         monthEnd (issue.m + 18)] := by
      unfold dateRangeME
      rw [hcnt, hstartm]
      rw [show List.range 4 = [0, 1, 2, 3] from rfl]
      simp only [List.map]
      rw [show issue.m + 6 + 6 * 0 = issue.m + 6 by omega,
          show issue.m + 6 + 6 * 1 = issue.m + 12 by omega,
          show issue.m + 6 + 6 * 2 = issue.m + 18 by omega,
          show issue.m + 6 + 6 * 3 = issue.m + 24 by omega]
      simp only [List.filter_cons, List.filter_nil, h6, h12, h18, h24f, if_true,
        Bool.false_eq_true, if_false]
    have hflows3 : (FixedRateBond.mk issue (addMonths issue 24) (1/50) 2 par).cashflows =
        some ([monthEnd (issue.m + 6), monthEnd (issue.m + 12),
               monthEnd (issue.m + 18)].zip
          (List.replicate 2 (par * (1/50) / ((2:ℕ) : ℚ)) ++
            [par * (1/50) / ((2:ℕ) : ℚ) + par])) := by
      unfold FixedRateBond.cashflows
      dsimp only
      rw [hrange3]
      rfl
    rw [hflows3, hamt]
    rfl

/-- **C6 witness** — the characterization instantiated three times: a Dec-31
month-end issue (4 flows ending at maturity), the Feb-28 issue of leap year 4
that is *not* a month-end yet still yields 4 flows, and a mid-March issue
(3 flows, principal on the +18-month date). -/
theorem C6_witness :
    (addMonths ⟨23, 31⟩ 24 = monthEnd 47 ∧
      (FixedRateBond.mk ⟨23, 31⟩ (addMonths ⟨23, 31⟩ 24) (1/50) 2 1000000).cashflows =
        some [(monthEnd 29, 1000000 / 100),
              (monthEnd 35, 1000000 / 100),
              (monthEnd 41, 1000000 / 100),
              (monthEnd 47, 1000000 / 100 + 1000000)]) ∧
    (addMonths ⟨49, 28⟩ 24 = monthEnd 73 ∧
      (FixedRateBond.mk ⟨49, 28⟩ (addMonths ⟨49, 28⟩ 24) (1/50) 2 1000000).cashflows =
        some [(monthEnd 55, 1000000 / 100),
              (monthEnd 61, 1000000 / 100),
              (monthEnd 67, 1000000 / 100),
              (monthEnd 73, 1000000 / 100 + 1000000)]) ∧
    (FixedRateBond.mk ⟨14, 15⟩ (addMonths ⟨14, 15⟩ 24) (1/50) 2 1000000).cashflows =
      some [(monthEnd 20, 1000000 / 100),
            (monthEnd 26, 1000000 / 100),
            (monthEnd 32, 1000000 / 100 + 1000000)] :=
  ⟨(C6_two_year_schedule ⟨23, 31⟩ 1000000).1 (by decide),
   (C6_two_year_schedule ⟨49, 28⟩ 1000000).1 (by decide),
   (C6_two_year_schedule ⟨14, 15⟩ 1000000).2 (by decide)⟩

/-- A two-year 2% semiannual bond issued mid-month (day 15 of March,
absolute month 14). -/
def bondMid : FixedRateBond :=
  ⟨⟨14, 15⟩, addMonths ⟨14, 15⟩ 24, 1/50, 2, 1000000⟩

/-- **C6 counterexample** — For the mid-month issue date `⟨14, 15⟩` the
2-year 2% semiannual bond has only **3** cash flows, not 4: the month-end
anchored schedule drops the final coupon because the last anchor (month-end)
falls after the mid-month maturity.  The claim's "for every issue date d …
exactly 4 pairs, spaced from issue to maturity inclusive" is false. -/
theorem C6_counterexample :
    (bondMid.cashflows).map List.length = some 3 ∧ (3 : ℕ) ≠ 4 := by
  constructor
  · decide
  · decide

/- ## C7: valuation at or after maturity -/

lemma cashflows_eq_some {b : FixedRateBond} {cfs : List (Date × ℚ)}
    (h : b.cashflows = some cfs) :
    ∃ d ds, dateRangeME (addMonths b.issue (12 / b.freq)) b.maturity (12 / b.freq)
        = d :: ds ∧
      cfs = (d :: ds).zip
        (List.replicate ds.length (b.par * b.coupon / (b.freq : ℚ)) ++
          [b.par * b.coupon / (b.freq : ℚ) + b.par]) := by
  unfold FixedRateBond.cashflows at h
  rcases hds : dateRangeME (addMonths b.issue (12 / b.freq)) b.maturity
      (12 / b.freq) with _ | ⟨d, ds⟩
  · rw [hds] at h
    exact absurd h (by simp)
  · rw [hds] at h
    simp only [Option.some.injEq] at h
    exact ⟨d, ds, rfl, h.symm⟩

/-- **C7 (amended)** — `cashflows()` ignores the valuation date entirely:
whenever it returns at all it returns a *nonempty* schedule, and for any
valuation date — including one at or after maturity — `pv` is the discounted
sum over that full schedule; with the trivial curve (discount factor 1) and
positive par it is strictly positive, not 0.  The claim's "empty sequence and
pv = 0 after maturity" does not hold. -/
theorem C7_pv_after_maturity (b : FixedRateBond) (cfs : List (Date × ℚ))
    (h : b.cashflows = some cfs) (hpar : 0 < b.par) (hcoup : 0 ≤ b.coupon)
    (today : Date) (hT : dateLe b.maturity today = true) :
    cfs ≠ [] ∧
    b.pv (fun _ => 1) today = some ((cfs.map fun p => (p.2 : ℝ)).sum) ∧
    0 < (cfs.map fun p => (p.2 : ℝ)).sum := by
  obtain ⟨d, ds, hds, hcfs⟩ := cashflows_eq_some h
  have hlen2 : (List.replicate ds.length (b.par * b.coupon / (b.freq : ℚ)) ++
      [b.par * b.coupon / (b.freq : ℚ) + b.par]).length = ds.length + 1 := by
    simp
  have hlen : cfs.length = ds.length + 1 := by
    rw [hcfs, List.length_zip, hlen2]
    simp
  have hne : cfs ≠ [] := by
    intro hnil
    rw [hnil] at hlen
    simp at hlen
  have hsnd : cfs.map Prod.snd =
      List.replicate ds.length (b.par * b.coupon / (b.freq : ℚ)) ++
        [b.par * b.coupon / (b.freq : ℚ) + b.par] := by
    rw [hcfs]
    exact List.map_snd_zip _ _ (by simp)
  have hc0 : (0:ℚ) ≤ b.par * b.coupon / (b.freq : ℚ) :=
    div_nonneg (mul_nonneg hpar.le hcoup) (Nat.cast_nonneg _)
  have hsumQ : 0 < (cfs.map Prod.snd).sum := by
    rw [hsnd, List.sum_append, List.sum_replicate, List.sum_cons, List.sum_nil]
    have h1 : (0:ℚ) ≤ ds.length • (b.par * b.coupon / (b.freq : ℚ)) :=
      nsmul_nonneg hc0 _
    have h2 : (0:ℚ) < b.par * b.coupon / (b.freq : ℚ) + b.par :=
      add_pos_of_nonneg_of_pos hc0 hpar
    linarith
  have hcast : (cfs.map fun p => (p.2 : ℝ)).sum = ((cfs.map Prod.snd).sum : ℚ) := by
    rw [show (cfs.map fun p => ((p.2 : ℚ) : ℝ)) = (cfs.map Prod.snd).map
        (fun q : ℚ => (q : ℝ)) from (List.map_map _ _ _).symm]
    exact (map_list_sum (Rat.castHom ℝ).toAddMonoidHom _).symm
  refine ⟨hne, ?_, ?_⟩
  · unfold FixedRateBond.pv
    rw [h]
    simp
  · rw [hcast]
    exact_mod_cast hsumQ

/-- The notebook's first portfolio bond: 2-year 2% semiannual, par 1,000,000,
issued on the concrete month-end date `⟨23, 31⟩`. -/
def bond0 : FixedRateBond :=
  ⟨⟨23, 31⟩, addMonths ⟨23, 31⟩ 24, 1/50, 2, 1000000⟩

/-- The cash-flow schedule of `bond0`. -/
def cfs0 : List (Date × ℚ) :=
  [(⟨29, 30⟩, 10000), (⟨35, 31⟩, 10000), (⟨41, 30⟩, 10000), (⟨47, 31⟩, 1010000)]

lemma bond0_cashflows : bond0.cashflows = some cfs0 := by
  unfold bond0 FixedRateBond.cashflows
  dsimp only
  rw [show dateRangeME (addMonths ⟨23, 31⟩ 6) (addMonths ⟨23, 31⟩ 24) 6 =
      [⟨29, 30⟩, ⟨35, 31⟩, ⟨41, 30⟩, ⟨47, 31⟩] from by decide]
  simp only [List.length_cons, List.length_nil, List.replicate, List.cons_append,
    List.nil_append, List.zip_cons_cons, List.zip_nil_right, cfs0,
    Option.some.injEq, List.cons.injEq, Prod.mk.injEq]
  norm_num

/-- **C7 counterexample** — Valuing `bond0` *at its maturity date* with the
trivial curve: `cashflows()` is nonempty (it never depends on the valuation
date) and `pv` returns 1,040,000 ≠ 0, contradicting "cashflows() yields an
empty sequence and pv returns 0 for every curve". -/
theorem C7_counterexample :
    (bond0.cashflows).getD [] ≠ [] ∧
    bond0.pv (fun _ => 1) (addMonths ⟨23, 31⟩ 24) = some 1040000 ∧
    (1040000 : ℝ) ≠ 0 := by
  refine ⟨by rw [bond0_cashflows]; simp [cfs0], ?_, by norm_num⟩
  unfold FixedRateBond.pv
  rw [bond0_cashflows]
  simp [cfs0]
  norm_num

/-- **C7 witness** — `C7_pv_after_maturity` applied to `bond0` valued at its
maturity `⟨47, 31⟩`. -/
theorem C7_witness :
    cfs0 ≠ [] ∧
    bond0.pv (fun _ => 1) ⟨47, 31⟩ = some ((cfs0.map fun p => (p.2 : ℝ)).sum) ∧
    0 < (cfs0.map fun p => (p.2 : ℝ)).sum :=
  C7_pv_after_maturity bond0 cfs0 bond0_cashflows (by norm_num [bond0])
    (by norm_num [bond0]) ⟨47, 31⟩ (by decide)

/- ## C10: empty schedules crash cashflows() -/

/-- A bond maturing before its first scheduled coupon date: issued Jan 15
(absolute month 12), maturing Feb 1. -/
def bondShort : FixedRateBond := ⟨⟨12, 15⟩, ⟨13, 1⟩, 1/50, 2, 1000000⟩

/-- **C10** — `cashflows()` is not total: `bondShort` is a valid bond
(maturity after issue) whose maturity precedes issue + 6 months, its
generated payment-date sequence is empty, and `cfs[-1] += par` indexes an
empty list — `cashflows()` fails (modelled `none`) and `pv` propagates the
failure for every curve and valuation date. -/
theorem C10_cashflows_not_total :
    dateLt bondShort.issue bondShort.maturity = true ∧
    dateLt bondShort.maturity (addMonths bondShort.issue (12 / bondShort.freq))
      = true ∧
    dateRangeME (addMonths bondShort.issue (12 / bondShort.freq))
      bondShort.maturity (12 / bondShort.freq) = [] ∧
    bondShort.cashflows = none ∧
    ∀ df today, bondShort.pv df today = none := by
  refine ⟨by decide, by decide, by decide, by decide, ?_⟩
  intro df today
  have hc : bondShort.cashflows = none := by decide
  unfold FixedRateBond.pv
  rw [hc]
  rfl

/- ## C9: Curve Builder, spec-modelled ZeroCurve, scenario ordering -/

/-- Modelled from the spec: the fixed tenor grid `[3M, 6M, 1Y, 3Y, 5Y, 10Y,
15Y]` as year fractions (the `tenors` variable is defined outside the
provided sources). -/
def tenorGrid : List ℚ := [1/4, 1/2, 1, 3, 5, 10, 15]

/-- The EWMA up-shock per tenor from the source markdown table (−2.65 bp,
−2.13 bp, −2.98 bp, −24.40 bp, −27.63 bp, −27.55 bp, −25.97 bp): every
component of the "up" shock is negative. -/
def ewmaUp : List ℚ :=
  [-265/1000000, -213/1000000, -298/1000000,
   -2440/1000000, -2763/1000000, -2755/1000000, -2597/1000000]

/-- Piecewise-linear interpolation through knot points, flat beyond the
first and last knots. -/
def interp : List (ℚ × ℚ) → ℚ → ℚ
  | [], _ => 0
  | [p], _ => p.2
  | p :: q :: rest, t =>
      if t ≤ p.1 then p.2
      else if t ≤ q.1 then p.2 + (q.2 - p.2) * (t - p.1) / (q.1 - p.1)
      else interp (q :: rest) t

/-- Modelled from the spec: the external `ZeroCurve` collaborator (not in the
provided sources) — constructed from a tenor list and a rate vector, zero
rates linearly interpolated on the grid, continuously compounded discount
factor `exp(-r(t)·t)`. -/
structure ZeroCurve where
  knots : List (ℚ × ℚ)

/-- Zero rate at year fraction `t`. -/
def ZeroCurve.rate (c : ZeroCurve) (t : ℚ) : ℚ := interp c.knots t

/-- `discount_factor(year_fraction)`. -/
noncomputable def ZeroCurve.discount_factor (c : ZeroCurve) (t : ℚ) : ℝ :=
  Real.exp (-(c.rate t : ℝ) * (t : ℝ))

/-- `ZeroCurve(tenors, rates)` as the notebook builds its curves. -/
def mkZeroCurve (tenors rates : List ℚ) : ZeroCurve := ⟨tenors.zip rates⟩

lemma interp_lt_interp : ∀ (l l' : List (ℚ × ℚ)), l ≠ [] →
    List.Chain' (fun p q : ℚ × ℚ => p.1 < q.1) l →
    List.Forall₂ (fun p q : ℚ × ℚ => p.1 = q.1 ∧ q.2 < p.2) l l' →
    ∀ t, interp l' t < interp l t := by
  intro l
  induction l with
  | nil => intro l' h _ _ _; exact absurd rfl h
  | cons a tail ih =>
    intro l' _ hch hf t
    cases hf with
    | cons hrel htail =>
      rename_i a' tail'
      cases tail with
      | nil =>
        cases htail
        simpa [interp] using hrel.2
      | cons c rest =>
        cases htail with
        | cons hrel2 htail2 =>
          rename_i c' rest'
          have hab : a.1 = a'.1 := hrel.1
          have hcd : c.1 = c'.1 := hrel2.1
          have hac : a.1 < c.1 := (List.chain'_cons.mp hch).1
          simp only [interp]
          rw [← hab, ← hcd]
          split_ifs with h1 h2
          · exact hrel.2
          · have hta : a.1 < t := lt_of_not_le h1
            have hw : 0 < c.1 - a.1 := by linarith
            have hθ0 : 0 ≤ (t - a.1) / (c.1 - a.1) :=
              div_nonneg (by linarith) hw.le
            have hθ1 : (t - a.1) / (c.1 - a.1) ≤ 1 :=
              (div_le_one hw).mpr (by linarith)
            have hb2 : a'.2 < a.2 := hrel.2
            have hd2 : c'.2 < c.2 := hrel2.2
            rw [mul_div_assoc, mul_div_assoc]
            rcases le_total (a.2 - a'.2) (c.2 - c'.2) with hpq | hpq
            · have hk := mul_nonneg hθ0 (sub_nonneg.mpr hpq)
              nlinarith
            · have hk := mul_nonneg (sub_nonneg.mpr hθ1) (sub_nonneg.mpr hpq)
              nlinarith
          · exact ih (c' :: rest') (List.cons_ne_nil _ _) hch.tail
              (List.Forall₂.cons hrel2 htail2) t

lemma chain'_zip_fst : ∀ (ts rs : List ℚ), List.Chain' (· < ·) ts →
    List.Chain' (fun p q : ℚ × ℚ => p.1 < q.1) (ts.zip rs) := by
  intro ts
  induction ts with
  | nil => intro rs _; simp
  | cons t1 ts ih =>
    intro rs hch
    cases rs with
    | nil => simp
    | cons r1 rs =>
      rw [List.zip_cons_cons]
      cases ts with
      | nil => simp
      | cons t2 ts2 =>
        cases rs with
        | nil => simp [List.zip_nil_right]
        | cons r2 rs2 =>
          rw [List.zip_cons_cons]
          refine List.chain'_cons.mpr ⟨(List.chain'_cons.mp hch).1, ?_⟩
          have h := ih (r2 :: rs2) (List.chain'_cons.mp hch).2
          rwa [List.zip_cons_cons] at h

lemma forall₂_zip_shock_neg : ∀ (ts rs ss : List ℚ), rs.length = ts.length →
    ss.length = ts.length → (∀ s ∈ ss, s < 0) →
    List.Forall₂ (fun p q : ℚ × ℚ => p.1 = q.1 ∧ q.2 < p.2)
      (ts.zip rs) (ts.zip (List.zipWith (fun a s => a + s) rs ss)) := by
  intro ts
  induction ts with
  | nil => intro rs ss _ _ _; simp
  | cons t ts ih =>
    intro rs ss h1 h2 hneg
    cases rs with
    | nil => simp at h1
    | cons r rs =>
      cases ss with
      | nil => simp at h2
      | cons s ss =>
        rw [List.zipWith_cons_cons, List.zip_cons_cons, List.zip_cons_cons]
        refine List.Forall₂.cons ⟨rfl, ?_⟩
          (ih rs ss (by simpa using h1) (by simpa using h2)
            (fun x hx => hneg x (List.mem_cons_of_mem _ hx)))
        have hs := hneg s (List.mem_cons_self _ _)
        simp only
        linarith

lemma forall₂_zip_shock_pos : ∀ (ts rs ss : List ℚ), rs.length = ts.length →
    ss.length = ts.length → (∀ s ∈ ss, 0 < s) →
    List.Forall₂ (fun p q : ℚ × ℚ => p.1 = q.1 ∧ q.2 < p.2)
      (ts.zip (List.zipWith (fun a s => a + s) rs ss)) (ts.zip rs) := by
  intro ts
  induction ts with
  | nil => intro rs ss _ _ _; simp
  | cons t ts ih =>
    intro rs ss h1 h2 hposs
    cases rs with
    | nil => simp at h1
    | cons r rs =>
      cases ss with
      | nil => simp at h2
      | cons s ss =>
        rw [List.zipWith_cons_cons, List.zip_cons_cons, List.zip_cons_cons]
        refine List.Forall₂.cons ⟨rfl, ?_⟩
          (ih rs ss (by simpa using h1) (by simpa using h2)
            (fun x hx => hposs x (List.mem_cons_of_mem _ hx)))
        have hs := hposs s (List.mem_cons_self _ _)
        simp only
        linarith

lemma list_sum_lt_sum {α : Type} (l : List α) (f g : α → ℝ) (hne : l ≠ [])
    (h : ∀ x ∈ l, f x < g x) : (l.map f).sum < (l.map g).sum := by
  induction l with
  | nil => exact absurd rfl hne
  | cons a tail ih =>
    cases tail with
    | nil => simpa using h a (by simp)
    | cons b tl =>
      have h1 := h a (by simp)
      have h2 := ih (by simp) (fun x hx => h x (List.mem_cons_of_mem _ hx))
      simp only [List.map_cons, List.sum_cons] at h2 ⊢
      linarith

lemma cashflows_some_ne_nil {b : FixedRateBond} {cfs : List (Date × ℚ)}
    (h : b.cashflows = some cfs) : cfs ≠ [] := by
  obtain ⟨d, ds, _, hcfs⟩ := cashflows_eq_some h
  intro hnil
  rw [hnil] at hcfs
  have := congrArg List.length hcfs
  simp at this

/-- Repricing under a pointwise strictly lower zero curve strictly raises
the present value of a bond with positive future cash flows. -/
lemma pv_lt_pv_of_rates_lt (knots knots' : List (ℚ × ℚ)) (hne : knots ≠ [])
    (hch : List.Chain' (fun p q : ℚ × ℚ => p.1 < q.1) knots)
    (hlt : List.Forall₂ (fun p q : ℚ × ℚ => p.1 = q.1 ∧ q.2 < p.2) knots knots')
    (b : FixedRateBond) (cfs : List (Date × ℚ)) (hcfs : b.cashflows = some cfs)
    (hpos : ∀ p ∈ cfs, 0 < p.2) (today : Date)
    (hfut : ∀ p ∈ cfs, toDays today < toDays p.1) :
    ∃ x y : ℝ, b.pv (ZeroCurve.discount_factor ⟨knots⟩) today = some x ∧
      b.pv (ZeroCurve.discount_factor ⟨knots'⟩) today = some y ∧ x < y := by
  have hnil := cashflows_some_ne_nil hcfs
  unfold FixedRateBond.pv
  rw [hcfs]
  simp only [Option.map_some']
  refine ⟨_, _, rfl, rfl, ?_⟩
  refine list_sum_lt_sum cfs _ _ hnil ?_
  intro p hp
  have htpos : 0 < yearFrac today p.1 := by
    unfold yearFrac
    have h1 : (toDays today : ℚ) < (toDays p.1 : ℚ) := by
      exact_mod_cast hfut p hp
    have h2 : (0:ℚ) < 365 := by norm_num
    exact div_pos (by linarith) h2
  have hr : interp knots' (yearFrac today p.1) < interp knots (yearFrac today p.1) :=
    interp_lt_interp knots knots' hne hch hlt _
  have hdf : ZeroCurve.discount_factor ⟨knots⟩ (yearFrac today p.1) <
      ZeroCurve.discount_factor ⟨knots'⟩ (yearFrac today p.1) := by
    unfold ZeroCurve.discount_factor ZeroCurve.rate
    apply Real.exp_lt_exp.mpr
    have h1 : ((interp knots' (yearFrac today p.1) : ℚ) : ℝ) <
        ((interp knots (yearFrac today p.1) : ℚ) : ℝ) := by exact_mod_cast hr
    have h2 : (0:ℝ) < ((yearFrac today p.1 : ℚ) : ℝ) := by exact_mod_cast htpos
    nlinarith
  have hppos : (0:ℝ) < (p.2 : ℝ) := by exact_mod_cast hpos p hp
  exact mul_lt_mul_of_pos_left hdf hppos

lemma tenorGrid_chain : List.Chain' (· < ·) tenorGrid := by
  simp only [tenorGrid, List.chain'_cons, List.chain'_singleton, and_true]
  norm_num

lemma ewmaUp_neg : ∀ s ∈ ewmaUp, s < 0 := by
  intro s hs
  simp only [ewmaUp, List.mem_cons, List.not_mem_nil, or_false] at hs
  rcases hs with rfl | rfl | rfl | rfl | rfl | rfl | rfl <;> norm_num

lemma ewmaUp_map_neg_pos : ∀ s ∈ ewmaUp.map (fun s => -s), 0 < s := by
  intro s hs
  simp only [List.mem_map] at hs
  obtain ⟨u, hu, rfl⟩ := hs
  have := ewmaUp_neg u hu
  linarith

/-- **C9 (amended)** — With the example shocks of the source markdown, whose
"up" components are all *negative* (the eigenvector sign is arbitrary and the
realized up-shock lowers rates), the scenario ordering is the reverse of the
claim: for any base-rate vector on the 7-tenor grid and any bond with
positive cash flows strictly after the valuation date, the Up-scenario PV is
strictly *greater* than Base, and the Down-scenario PV strictly smaller. -/
theorem C9_scenario_ordering (rates : List ℚ) (hlen : rates.length = 7)
    (b : FixedRateBond) (cfs : List (Date × ℚ)) (hcfs : b.cashflows = some cfs)
    (hpos : ∀ p ∈ cfs, 0 < p.2) (today : Date)
    (hfut : ∀ p ∈ cfs, toDays today < toDays p.1) :
    ∃ base up down : ℝ,
      b.pv (mkZeroCurve tenorGrid rates).discount_factor today = some base ∧
      b.pv (mkZeroCurve tenorGrid
        (List.zipWith (fun a s => a + s) rates ewmaUp)).discount_factor today
        = some up ∧
      b.pv (mkZeroCurve tenorGrid
        (List.zipWith (fun a s => a + s) rates
          (ewmaUp.map (fun s => -s)))).discount_factor today = some down ∧
      base < up ∧ down < base := by
  simp only [mkZeroCurve]
  have hrt : rates.length = tenorGrid.length := by simp [tenorGrid, hlen]
  have hup : ewmaUp.length = tenorGrid.length := by simp [tenorGrid, ewmaUp]
  have hdn : (ewmaUp.map (fun s => -s)).length = tenorGrid.length := by
    simp [tenorGrid, ewmaUp]
  have hnnil : tenorGrid.zip rates ≠ [] := by
    refine List.length_pos.mp ?_
    rw [List.length_zip, hlen]
    simp [tenorGrid]
  have hnnild : tenorGrid.zip
      (List.zipWith (fun a s => a + s) rates (ewmaUp.map (fun s => -s))) ≠ [] := by
    refine List.length_pos.mp ?_
    rw [List.length_zip, List.length_zipWith, hlen]
    simp [tenorGrid, ewmaUp]
  obtain ⟨x, y, hx, hy, hxy⟩ := pv_lt_pv_of_rates_lt (tenorGrid.zip rates)
    (tenorGrid.zip (List.zipWith (fun a s => a + s) rates ewmaUp)) hnnil
    (chain'_zip_fst tenorGrid rates tenorGrid_chain)
    (forall₂_zip_shock_neg tenorGrid rates ewmaUp hrt hup ewmaUp_neg)
    b cfs hcfs hpos today hfut
  obtain ⟨x', y', hx', hy', hx'y'⟩ := pv_lt_pv_of_rates_lt
    (tenorGrid.zip (List.zipWith (fun a s => a + s) rates (ewmaUp.map (fun s => -s))))
    (tenorGrid.zip rates) hnnild
    (chain'_zip_fst tenorGrid _ tenorGrid_chain)
    (forall₂_zip_shock_pos tenorGrid rates (ewmaUp.map (fun s => -s)) hrt hdn
      ewmaUp_map_neg_pos)
    b cfs hcfs hpos today hfut
  rw [hx] at hy'
  have hxy' : x = y' := Option.some.inj hy'
  refine ⟨x, y, x', hx, hy, hx', hxy, ?_⟩
  rw [hxy']
  exact hx'y'

/-- A concrete flat 3% base-rate vector over the 7 tenors. -/
def rates0 : List ℚ :=
  [3/100, 3/100, 3/100, 3/100, 3/100, 3/100, 3/100]

/-- **C9 witness** — the scenario ordering instantiated at the flat 3% base
curve and the notebook's 2-year bond `bond0` valued at its issue date. -/
theorem C9_witness :
    ∃ base up down : ℝ,
      bond0.pv (mkZeroCurve tenorGrid rates0).discount_factor ⟨23, 31⟩
        = some base ∧
      bond0.pv (mkZeroCurve tenorGrid
        (List.zipWith (fun a s => a + s) rates0 ewmaUp)).discount_factor ⟨23, 31⟩
        = some up ∧
      bond0.pv (mkZeroCurve tenorGrid
        (List.zipWith (fun a s => a + s) rates0
          (ewmaUp.map (fun s => -s)))).discount_factor ⟨23, 31⟩ = some down ∧
      base < up ∧ down < base :=
  C9_scenario_ordering rates0 rfl bond0 cfs0 bond0_cashflows
    (by norm_num [cfs0]) ⟨23, 31⟩ (by decide)

/-- **C9 counterexample** — At the example shocks (all negative on the "up"
side), a flat 3% base curve and the notebook's own 2-year bond as the
portfolio, the Up-scenario PV is strictly *greater* than the Base-scenario
PV — the claim's "Up-scenario portfolio PV strictly less than Base" is false
for this positively-duration portfolio. -/
theorem C9_counterexample :
    (bond0.pv (mkZeroCurve tenorGrid rates0).discount_factor ⟨23, 31⟩).isSome ∧
    (bond0.pv (mkZeroCurve tenorGrid
      (List.zipWith (fun a s => a + s) rates0 ewmaUp)).discount_factor
        ⟨23, 31⟩).isSome ∧
    (bond0.pv (mkZeroCurve tenorGrid rates0).discount_factor ⟨23, 31⟩).getD 0 <
      (bond0.pv (mkZeroCurve tenorGrid
        (List.zipWith (fun a s => a + s) rates0 ewmaUp)).discount_factor
          ⟨23, 31⟩).getD 0 := by
  simp only [mkZeroCurve]
  obtain ⟨x, y, hx, hy, hxy⟩ := pv_lt_pv_of_rates_lt (tenorGrid.zip rates0)
    (tenorGrid.zip (List.zipWith (fun a s => a + s) rates0 ewmaUp))
    (by decide)
    (chain'_zip_fst tenorGrid rates0 tenorGrid_chain)
    (forall₂_zip_shock_neg tenorGrid rates0 ewmaUp rfl rfl ewmaUp_neg)
    bond0 cfs0 bond0_cashflows (by norm_num [cfs0]) ⟨23, 31⟩ (by decide)
  rw [hx, hy]
  exact ⟨rfl, rfl, by simpa using hxy⟩
